import Mathlib

/-!
Verification of the SSDP NOTIFY message model of `tokio-ssdp`
(`src/notify.rs`), over a shallow embedding in Lean 4.

Rust strings and byte slices are embedded as `List Nat` (each element a
byte value). The repository delegates the raw HTTP parsing to the external
`httparse` crate, which is not part of the repository sources; that parser
is modelled from the specification (section 4.1 of the spec). Everything
else (`NotifyMessage`, `NotifyRequest`, `header_contains`, `header_match`,
the body/header post-processing in `NotifyRequest::parse`) is translated
directly from `src/notify.rs`.
-/

namespace TokioSsdp

/-- Byte value of carriage return. -/
def CR : Nat := 13

/-- Byte value of line feed. -/
def LF : Nat := 10

/-- Byte value of space. -/
def SP : Nat := 32

/-- Byte value of the colon separator. -/
def COLON : Nat := 58

/-- Embeds `u8::to_ascii_lowercase`: maps an ASCII uppercase letter byte to
its lowercase counterpart and leaves every other byte unchanged. -/
def toAsciiLower (b : Nat) : Nat :=
  if 65 ≤ b ∧ b ≤ 90 then b + 32 else b

/-- Embeds `str::eq_ignore_ascii_case` on the underlying bytes: equality up
to ASCII case folding (same length, bytes equal after lowercasing). -/
def eqIgnoreAsciiCase (a b : List Nat) : Bool :=
  a.map toAsciiLower == b.map toAsciiLower

/-- Tests whether `needle` is a leading segment of `hay`. -/
def startsWith : List Nat → List Nat → Bool
  | [], _ => true
  | _ :: _, [] => false
  | a :: as, b :: bs => a == b && startsWith as bs

/-- Embeds `str::contains` with a string pattern as used at
`src/notify.rs` line 102: byte-level substring search (for valid UTF-8
data this coincides with character-level substring search). -/
def listContains : List Nat → List Nat → Bool
  | [], needle => needle.isEmpty
  | b :: rest, needle => startsWith needle (b :: rest) || listContains rest needle

/-! ## Lossy UTF-8 decoding

`NotifyRequest::parse` decodes header values and the body with
`String::from_utf8_lossy`. The functions below embed Rust's decoding:
a maximal valid prefix of a multi-byte sequence that is not completed is
replaced by one U+FFFD replacement character (bytes `EF BF BD`), and
decoding continues at the first offending byte; a sequence truncated by
the end of input is replaced by a single final replacement character. -/

/-- Bytes of the U+FFFD replacement character. -/
def repl : List Nat := [0xEF, 0xBF, 0xBD]

/-- Tests whether a byte is a UTF-8 continuation byte. -/
def utf8Cont (b : Nat) : Bool := 0x80 ≤ b && b ≤ 0xBF

/-- Lower bound for the second byte of a multi-byte UTF-8 sequence with
lead byte `b` (restricted ranges for `E0` and `F0` leads). -/
def utf8SecondLo (b : Nat) : Nat :=
  if b = 0xE0 then 0xA0 else if b = 0xF0 then 0x90 else 0x80

/-- Upper bound for the second byte of a multi-byte UTF-8 sequence with
lead byte `b` (restricted ranges for `ED` and `F4` leads). -/
def utf8SecondHi (b : Nat) : Nat :=
  if b = 0xED then 0x9F else if b = 0xF4 then 0x8F else 0xBF

/-- Tests whether the second byte `c` is admissible after lead byte `b`. -/
def utf8Second (b c : Nat) : Bool := utf8SecondLo b ≤ c && c ≤ utf8SecondHi b

/-- Embeds the validity test of Rust's UTF-8 decoder: `utf8Valid l = true`
iff `l` is a well-formed UTF-8 byte sequence. -/
def utf8Valid : List Nat → Bool
  | [] => true
  | b :: rest =>
    if b < 0x80 then utf8Valid rest
    else if 0xC2 ≤ b ∧ b ≤ 0xDF then
      match rest with
      | [] => false
      | c :: r2 => if utf8Cont c then utf8Valid r2 else false
    else if 0xE0 ≤ b ∧ b ≤ 0xEF then
      match rest with
      | [] => false
      | c :: r2 =>
        if utf8Second b c then
          match r2 with
          | [] => false
          | d :: r3 => if utf8Cont d then utf8Valid r3 else false
        else false
    else if 0xF0 ≤ b ∧ b ≤ 0xF4 then
      match rest with
      | [] => false
      | c :: r2 =>
        if utf8Second b c then
          match r2 with
          | [] => false
          | d :: r3 =>
            if utf8Cont d then
              match r3 with
              | [] => false
              | e :: r4 => if utf8Cont e then utf8Valid r4 else false
            else false
        else false
    else false

/-- Embeds `String::from_utf8_lossy(...).to_string()` (used at
`src/notify.rs` lines 73 and 77): decodes the byte list, replacing each
maximal invalid subpart by the replacement character. The output is again
a byte list (the UTF-8 bytes of the resulting Rust `String`). -/
def utf8Lossy : List Nat → List Nat
  | [] => []
  | b :: rest =>
    if b < 0x80 then b :: utf8Lossy rest
    else if 0xC2 ≤ b ∧ b ≤ 0xDF then
      match rest with
      | [] => repl
      | c :: r2 =>
        if utf8Cont c then b :: c :: utf8Lossy r2 else repl ++ utf8Lossy (c :: r2)
    else if 0xE0 ≤ b ∧ b ≤ 0xEF then
      match rest with
      | [] => repl
      | c :: r2 =>
        if utf8Second b c then
          match r2 with
          | [] => repl
          | d :: r3 =>
            if utf8Cont d then b :: c :: d :: utf8Lossy r3
            else repl ++ utf8Lossy (d :: r3)
        else repl ++ utf8Lossy (c :: r2)
    else if 0xF0 ≤ b ∧ b ≤ 0xF4 then
      match rest with
      | [] => repl
      | c :: r2 =>
        if utf8Second b c then
          match r2 with
          | [] => repl
          | d :: r3 =>
            if utf8Cont d then
              match r3 with
              | [] => repl
              | e :: r4 =>
                if utf8Cont e then b :: c :: d :: e :: utf8Lossy r4
                else repl ++ utf8Lossy (e :: r4)
            else repl ++ utf8Lossy (d :: r3)
        else repl ++ utf8Lossy (c :: r2)
    else repl ++ utf8Lossy rest

/-! ## The HTTP request parser

`NotifyRequest::parse` calls `httparse::Request::parse` (external crate,
sources not part of this repository). The parser is modelled from the
specification, section 4.1: a single HTTP/1.1-style request line plus
headers plus optional body; `Incomplete` when the data does not yet
contain a full header block (request line + terminating blank line);
`ParseError` when the request line or a header line violates the basic
method/path/header-name-value grammar; the completion result carries the
byte offset of the end of the header block. Lines are terminated by CRLF
and the blank line is an empty line. -/

/-- Tests whether a byte may appear in a method or path token: visible
ASCII, excluding space and control characters. -/
def isTokenByte (b : Nat) : Bool := 0x21 ≤ b && b ≤ 0x7E

/-- Tests whether a byte may appear in a header name: a token byte other
than the colon separator. -/
def isNameByte (b : Nat) : Bool := isTokenByte b && b ≠ COLON

/-- Tests whether a byte may appear in a header value: horizontal tab or
any byte that is not a control character and not DEL (bytes at and above
0x80 are permitted and later decoded lossily). -/
def isValueByte (b : Nat) : Bool := b = 9 || (0x20 ≤ b && b ≤ 0xFF && b ≠ 0x7F)

/-- Tests for optional whitespace after the header colon. -/
def isOWS (b : Nat) : Bool := b = SP || b = 9

/-- Bytes of the literal version text of the request line. -/
def httpVersion : List Nat := [72, 84, 84, 80, 47, 49, 46, 49]

/-- Splits the input into its header-block lines: accumulates the current
line (in reverse) in `acc`, closing a line at each CRLF, and stops at the
first empty line. Returns the lines before the blank line together with
the number of consumed bytes (blank line included), or `none` when the
input ends before a blank line is found. -/
def takeLinesAux : List Nat → List Nat → Option (List (List Nat) × Nat)
  | [], _ => none
  | 13 :: 10 :: rest, acc =>
    if acc = [] then some ([], 2)
    else
      match takeLinesAux rest [] with
      | none => none
      | some (ls, n) => some (acc.reverse :: ls, acc.length + 2 + n)
  | b :: rest, acc => takeLinesAux rest (b :: acc)

/-- Splits the input into the lines of its header block, returning the
lines before the terminating blank line and the length of the whole
header block, or `none` when no blank line is present. -/
def takeHeaderLines (l : List Nat) : Option (List (List Nat) × Nat) :=
  takeLinesAux l []

/-- Modelled from the spec: the request-line grammar — method token,
space, path token, space, the literal HTTP version. Returns the method
and path bytes, or `none` on a grammar violation. -/
def parseRequestLine (line : List Nat) : Option (List Nat × List Nat) :=
  let m := line.takeWhile isTokenByte
  match line.dropWhile isTokenByte with
  | 32 :: r2 =>
    if m.isEmpty then none
    else
      let p := r2.takeWhile isTokenByte
      match r2.dropWhile isTokenByte with
      | 32 :: r4 => if p.isEmpty then none else if r4 = httpVersion then some (m, p) else none
      | _ => none
  | _ => none

/-- Modelled from the spec: the header-line grammar — nonempty header
name, colon, optional whitespace, value bytes. Returns the raw name and
value bytes, or `none` on a grammar violation. -/
def parseHeaderLine (line : List Nat) : Option (List Nat × List Nat) :=
  let n := line.takeWhile isNameByte
  match line.dropWhile isNameByte with
  | 58 :: r2 =>
    if n.isEmpty then none
    else
      let v := r2.dropWhile isOWS
      if v.all isValueByte then some (n, v) else none
  | _ => none

/-- Result of the modelled `httparse::Request::parse`: a complete header
block with its end offset, methods, path and raw headers; a truncated
input; or a rejected request (grammar violation or header-capacity
overflow, both carried as `httparse::Error` values by the caller). -/
inductive HttparseResult : Type
  | complete (n : Nat) (method path : Option (List Nat))
      (headers : List (List Nat × List Nat)) : HttparseResult
  | truncated : HttparseResult
  | badRequest : HttparseResult
  deriving DecidableEq

/-- Counts the CRLF pairs of the input, scanning left to right. When the
input holds no blank line this is exactly its number of complete
lines. -/
def countCRLF : List Nat → Nat
  | 13 :: 10 :: rest => 1 + countCRLF rest
  | _ :: rest => countCRLF rest
  | [] => 0

/-- Modelled from the spec: `httparse::Request::parse` (the external
httparse crate is not part of the repository sources), against a header
buffer of `maxHeaders` slots supplied by the caller. Locates the header
block, parses the request line and every header line, and reports the
end-of-header-block offset; a missing blank line is a truncated datagram
and any offending line is a grammar violation. More header lines than
the buffer holds are the `TooManyHeaders` error — also in data without a
blank line, where every complete line beyond the request line plus
`maxHeaders` headers overflows the buffer. -/
def httparseParse (maxHeaders : Nat) (data : List Nat) : HttparseResult :=
  match takeHeaderLines data with
  | none => if maxHeaders + 1 < countCRLF data then .badRequest else .truncated
  | some (lines, n) =>
    match lines with
    | [] => .badRequest
    | rl :: hls =>
      if maxHeaders < hls.length then .badRequest
      else
        match parseRequestLine rl, hls.mapM parseHeaderLine with
        | some (m, p), some hs => .complete n (some m) (some p) hs
        | _, _ => .badRequest

/-! ## The notify module data model, from `src/notify.rs` -/

/-- Embeds `std::net::SocketAddr` as an abstract address value; none of
the notify operations inspect it. -/
structure SocketAddr where
  ip : Nat
  port : Nat
  deriving DecidableEq

/-- Embeds `NotifyError` (`src/notify.rs` lines 4-12). -/
inductive NotifyError : Type
  | incomplete : NotifyError
  | parseError : NotifyError
  | ioError : NotifyError
  deriving DecidableEq

/-- Embeds `NotifyMessage` (`src/notify.rs` lines 16-21). -/
structure NotifyMessage where
  remote_addr : SocketAddr
  data : List Nat
  deriving DecidableEq

/-- Embeds `NotifyRequest` (`src/notify.rs` lines 37-48); strings are
their UTF-8 bytes. -/
structure NotifyRequest where
  remote_addr : SocketAddr
  method : List Nat
  path : List Nat
  headers : List (List Nat × List Nat)
  body : List Nat
  deriving DecidableEq

/-- Embeds `NotifyRequest::parse` (`src/notify.rs` lines 60-91): runs the
httparse model against the 16-slot header buffer allocated at
`src/notify.rs` line 61, maps a truncated input to `Incomplete` and any
httparse error (grammar violation or `TooManyHeaders`) to `ParseError`;
on completion takes method and path (empty when absent), lossily decodes
each header value, and lossily decodes the bytes past the header block
as the body (empty when there are none). -/
def NotifyRequest.parse (remote_addr : SocketAddr) (data : List Nat) :
    Except NotifyError NotifyRequest :=
  match httparseParse 16 data with
  | .truncated => .error .incomplete
  | .badRequest => .error .parseError
  | .complete n m p hs =>
    .ok { remote_addr := remote_addr
          method := m.getD []
          path := p.getD []
          headers := hs.map (fun h => (h.1, utf8Lossy h.2))
          body := if n < data.length then utf8Lossy (data.drop n) else [] }

/-- Embeds `NotifyMessage::new` (`src/notify.rs` lines 25-27). -/
def NotifyMessage.new (remote_addr : SocketAddr) (data : List Nat) : NotifyMessage :=
  { remote_addr := remote_addr, data := data }

/-- Embeds `NotifyMessage::parse` (`src/notify.rs` lines 30-32). -/
def NotifyMessage.parse (m : NotifyMessage) : Except NotifyError NotifyRequest :=
  NotifyRequest.parse m.remote_addr m.data

/-- Embeds `NotifyRequest::header_contains` (`src/notify.rs` lines
99-103): some header whose name matches case-insensitively has a value
containing `value` as a substring. -/
def NotifyRequest.header_contains (r : NotifyRequest) (name value : List Nat) : Bool :=
  r.headers.any (fun h => eqIgnoreAsciiCase h.1 name && listContains h.2 value)

/-- Embeds `NotifyRequest::header_match` (`src/notify.rs` lines 112-116):
some header whose name matches case-insensitively has a value equal to
`value` up to ASCII case. -/
def NotifyRequest.header_match (r : NotifyRequest) (name value : List Nat) : Bool :=
  r.headers.any (fun h => eqIgnoreAsciiCase h.1 name && eqIgnoreAsciiCase h.2 value)

/-- Embeds `NotifyResponse` (`src/notify.rs` lines 121-130). -/
structure NotifyResponse where
  remote_addr : SocketAddr
  status_code : Nat
  headers : List (List Nat × List Nat)
  body : List Nat
  deriving DecidableEq

/-! ## Canonical request encodings

Used to state the roundtrip and truncation claims: the canonical byte
encoding of a request with method `M`, path `P`, headers `H` and body
`B`, and the well-formedness conditions under which that encoding is a
well-formed datagram. -/

/-- Bytes of the CRLF line terminator. -/
def CRLF : List Nat := [13, 10]

/-- Bytes of a request line with the given method and path. -/
def requestLineBytes (M P : List Nat) : List Nat :=
  M ++ 32 :: (P ++ 32 :: httpVersion)

/-- Bytes of a header line (without terminator): name, colon, one space,
value. -/
def headerLineBytes (h : List Nat × List Nat) : List Nat :=
  h.1 ++ 58 :: 32 :: h.2

/-- Bytes of the whole header block: request line, header lines and the
terminating blank line, each line with its CRLF terminator. -/
def headerBlockBytes (M P : List Nat) (H : List (List Nat × List Nat)) : List Nat :=
  requestLineBytes M P ++ CRLF ++ (H.flatMap fun h => headerLineBytes h ++ CRLF) ++ CRLF

/-- Canonical encoding of a request: header block followed by the body. -/
def encodeRequest (M P : List Nat) (H : List (List Nat × List Nat)) (B : List Nat) : List Nat :=
  headerBlockBytes M P H ++ B

/-- Well-formedness of one header pair: nonempty name of name bytes,
value bytes only, no leading whitespace in the value (it would be
consumed by the parser), and a valid-UTF-8 value (it is the byte encoding
of a Rust string). -/
def isHeaderWF (h : List Nat × List Nat) : Bool :=
  !h.1.isEmpty && h.1.all isNameByte && h.2.all isValueByte &&
    (h.2.dropWhile isOWS == h.2) && utf8Valid h.2

/-- Well-formedness of a request: nonempty method and path tokens,
well-formed headers, valid-UTF-8 body. -/
def wellFormedRequest (M P : List Nat) (H : List (List Nat × List Nat)) (B : List Nat) : Bool :=
  !M.isEmpty && M.all isTokenByte && !P.isEmpty && P.all isTokenByte &&
    H.all isHeaderWF && utf8Valid B

/-- Tests whether the byte list contains an adjacent CR LF pair. -/
def hasCRLF : List Nat → Bool
  | 13 :: 10 :: _ => true
  | _ :: rest => hasCRLF rest
  | [] => false

/-! ## Lossy decoding is the identity on valid UTF-8 -/

theorem utf8Lossy_of_valid : ∀ l, utf8Valid l = true → utf8Lossy l = l := by
  intro l
  induction l using utf8Valid.induct with
  | case1 => intro h; rfl
  | case2 c r2 hc ih =>
    intro h
    rw [utf8Valid.eq_def] at h
    rw [utf8Lossy.eq_def]
    simp only [if_pos hc] at h ⊢
    rw [ih h]
  | case3 c hc h2 =>
    intro h
    rw [utf8Valid.eq_def] at h
    simp [if_neg hc, if_pos h2] at h
  | case4 c hc h2 c1 r2 hcont ih =>
    intro h
    rw [utf8Valid.eq_def] at h
    rw [utf8Lossy.eq_def]
    simp only [if_neg hc, if_pos h2, if_pos hcont] at h ⊢
    rw [ih h]
  | case5 c hc h2 c1 r2 hcont =>
    intro h
    rw [utf8Valid.eq_def] at h
    simp [if_neg hc, if_pos h2, if_neg hcont] at h
  | case6 c hc h2 h3 =>
    intro h
    rw [utf8Valid.eq_def] at h
    simp [if_neg hc, if_neg h2, if_pos h3] at h
  | case7 c hc h2 h3 c1 hsec =>
    intro h
    rw [utf8Valid.eq_def] at h
    simp [if_neg hc, if_neg h2, if_pos h3, if_pos hsec] at h
  | case8 c hc h2 h3 c1 hsec c2 r2 hcont ih =>
    intro h
    rw [utf8Valid.eq_def] at h
    rw [utf8Lossy.eq_def]
    simp only [if_neg hc, if_neg h2, if_pos h3, if_pos hsec, if_pos hcont] at h ⊢
    rw [ih h]
  | case9 c hc h2 h3 c1 hsec c2 r2 hcont =>
    intro h
    rw [utf8Valid.eq_def] at h
    simp [if_neg hc, if_neg h2, if_pos h3, if_pos hsec, if_neg hcont] at h
  | case10 c hc h2 h3 c1 r2 hsec =>
    intro h
    rw [utf8Valid.eq_def] at h
    simp [if_neg hc, if_neg h2, if_pos h3, if_neg hsec] at h
  | case11 c hc h2 h3 h4 =>
    intro h
    rw [utf8Valid.eq_def] at h
    simp [if_neg hc, if_neg h2, if_neg h3, if_pos h4] at h
  | case12 c hc h2 h3 h4 c1 hsec =>
    intro h
    rw [utf8Valid.eq_def] at h
    simp [if_neg hc, if_neg h2, if_neg h3, if_pos h4, if_pos hsec] at h
  | case13 c hc h2 h3 h4 c1 hsec c2 hcont =>
    intro h
    rw [utf8Valid.eq_def] at h
    simp [if_neg hc, if_neg h2, if_neg h3, if_pos h4, if_pos hsec, if_pos hcont] at h
  | case14 c hc h2 h3 h4 c1 hsec c2 hcont c3 r2 hcont2 ih =>
    intro h
    rw [utf8Valid.eq_def] at h
    rw [utf8Lossy.eq_def]
    simp only [if_neg hc, if_neg h2, if_neg h3, if_pos h4, if_pos hsec, if_pos hcont,
      if_pos hcont2] at h ⊢
    rw [ih h]
  | case15 c hc h2 h3 h4 c1 hsec c2 hcont c3 r2 hcont2 =>
    intro h
    rw [utf8Valid.eq_def] at h
    simp [if_neg hc, if_neg h2, if_neg h3, if_pos h4, if_pos hsec, if_pos hcont,
      if_neg hcont2] at h
  | case16 c hc h2 h3 h4 c1 hsec c2 r2 hcont =>
    intro h
    rw [utf8Valid.eq_def] at h
    simp [if_neg hc, if_neg h2, if_neg h3, if_pos h4, if_pos hsec, if_neg hcont] at h
  | case17 c hc h2 h3 h4 c1 r2 hsec =>
    intro h
    rw [utf8Valid.eq_def] at h
    simp [if_neg hc, if_neg h2, if_neg h3, if_pos h4, if_neg hsec] at h
  | case18 c r2 hc h2 h3 h4 =>
    intro h
    rw [utf8Valid.eq_def] at h
    simp [if_neg hc, if_neg h2, if_neg h3, if_neg h4] at h

/-! ## Properties of the line splitter -/

theorem takeLinesAux_cons (b : Nat) (l acc : List Nat)
    (h : ∀ l', ¬(b = 13 ∧ l = 10 :: l')) :
    takeLinesAux (b :: l) acc = takeLinesAux l (b :: acc) :=
  takeLinesAux.eq_3 acc b l (fun l' hb hl => h l' ⟨hb, hl⟩)

theorem takeLinesAux_eq_none : ∀ l, hasCRLF l = false → ∀ acc, takeLinesAux l acc = none := by
  intro l
  induction l using hasCRLF.induct with
  | case1 rest => intro h; rw [hasCRLF.eq_1] at h; exact absurd h (by simp)
  | case2 b rest hcond ih =>
    intro h acc
    rw [hasCRLF.eq_2 b rest hcond] at h
    rw [takeLinesAux.eq_3 acc b rest hcond]
    exact ih h (b :: acc)
  | case3 => intro h acc; rw [takeLinesAux.eq_1]



theorem hasCRLF_of_no13 : ∀ x : List Nat, (∀ b ∈ x, b ≠ 13) → hasCRLF x = false := by
  intro x
  induction x with
  | nil => intro _; rw [hasCRLF.eq_3]
  | cons b rest ih =>
    intro h
    have hb : b ≠ 13 := h b (List.mem_cons_self b rest)
    rw [hasCRLF.eq_2 b rest (fun t h13 _ => hb h13)]
    exact ih (fun c hc => h c (List.mem_cons_of_mem b hc))

theorem hasCRLF_append13 : ∀ x : List Nat, (∀ b ∈ x, b ≠ 13) → hasCRLF (x ++ [13]) = false := by
  intro x
  induction x with
  | nil =>
    rw [List.nil_append]
    intro _
    rw [hasCRLF.eq_2 13 [] (fun t _ ht => by simp at ht), hasCRLF.eq_3]
  | cons b rest ih =>
    intro h
    have hb : b ≠ 13 := h b (List.mem_cons_self b rest)
    rw [List.cons_append, hasCRLF.eq_2 b (rest ++ [13]) (fun t h13 _ => hb h13)]
    exact ih (fun c hc => h c (List.mem_cons_of_mem b hc))

theorem takeLinesAux_append :
    ∀ (x : List Nat), (∀ b ∈ x, b ≠ 13) → ∀ (acc rest : List Nat),
      takeLinesAux (x ++ 13 :: 10 :: rest) acc =
        if x = [] ∧ acc = [] then some ([], 2)
        else
          match takeLinesAux rest [] with
          | none => none
          | some (ls, n) => some ((acc.reverse ++ x) :: ls, acc.length + x.length + 2 + n) := by
  intro x
  induction x with
  | nil =>
    intro _ acc rest
    rw [List.nil_append, takeLinesAux.eq_2]
    by_cases hacc : acc = []
    · simp [hacc]
    · rw [if_neg hacc, if_neg (by simp [hacc] : ¬([] = ([] : List Nat) ∧ acc = []))]
      cases htl : takeLinesAux rest [] with
      | none => simp
      | some p => simp
  | cons b x' ih =>
    intro h acc rest
    have hb : b ≠ 13 := h b (List.mem_cons_self b x')
    rw [List.cons_append,
      takeLinesAux.eq_3 acc b (x' ++ 13 :: 10 :: rest)
        (fun t h13 _ => hb h13),
      ih (fun c hc => h c (List.mem_cons_of_mem b hc)) (b :: acc) rest]
    have hcons : ¬(b :: x' = [] ∧ acc = []) := by simp
    have hcons2 : ¬(x' = [] ∧ b :: acc = []) := by simp
    rw [if_neg hcons2, if_neg hcons]
    match htl : takeLinesAux rest [] with
    | none => simp
    | some (ls, n) =>
      simp only []
      have : (b :: acc).reverse ++ x' = acc.reverse ++ b :: x' := by simp
      rw [this]
      have : (b :: acc).length + x'.length + 2 + n = acc.length + (b :: x').length + 2 + n := by
        simp
        omega
      rw [this]

theorem takeLinesAux_le :
    ∀ (l acc : List Nat) (ls : List (List Nat)) (n : Nat),
      takeLinesAux l acc = some (ls, n) → n ≤ acc.length + l.length := by
  intro l acc
  induction l, acc using takeLinesAux.induct with
  | case1 acc => intro ls n h; rw [takeLinesAux.eq_1] at h; exact absurd h (by simp)
  | case2 rest =>
    intro ls n h
    rw [takeLinesAux.eq_2] at h
    simp at h ⊢
    omega
  | case3 rest acc hacc hnone ih =>
    intro ls n h
    rw [takeLinesAux.eq_2, if_neg hacc, hnone] at h
    exact absurd h (by simp)
  | case4 rest acc hacc ls' n' hsome ih =>
    intro ls n h
    rw [takeLinesAux.eq_2, if_neg hacc, hsome] at h
    simp only [Option.some.injEq, Prod.mk.injEq] at h
    have := ih ls' n' hsome
    simp at this ⊢
    omega
  | case5 b rest acc hcond ih =>
    intro ls n h
    rw [takeLinesAux.eq_3 acc b rest hcond] at h
    have := ih ls n h
    simp at this ⊢
    omega

/-! ## Line parsers on canonical encodings -/

theorem takeWhile_append_cons (p : Nat → Bool) :
    ∀ (x : List Nat), (∀ b ∈ x, p b = true) → ∀ (c : Nat), p c = false → ∀ (y : List Nat),
      (x ++ c :: y).takeWhile p = x := by
  intro x
  induction x with
  | nil => intro _ c hc y; simp [List.takeWhile_cons, hc]
  | cons a x' ih =>
    intro h c hc y
    rw [List.cons_append, List.takeWhile_cons, h a (List.mem_cons_self a x')]
    rw [ih (fun b hb => h b (List.mem_cons_of_mem a hb)) c hc y]
    simp

theorem dropWhile_append_cons (p : Nat → Bool) :
    ∀ (x : List Nat), (∀ b ∈ x, p b = true) → ∀ (c : Nat), p c = false → ∀ (y : List Nat),
      (x ++ c :: y).dropWhile p = c :: y := by
  intro x
  induction x with
  | nil => intro _ c hc y; simp [List.dropWhile_cons, hc]
  | cons a x' ih =>
    intro h c hc y
    rw [List.cons_append, List.dropWhile_cons]
    simp only [h a (List.mem_cons_self a x'), if_pos]
    exact ih (fun b hb => h b (List.mem_cons_of_mem a hb)) c hc y

theorem parseRequestLine_encode (M P : List Nat)
    (hM : M.isEmpty = false) (hMt : ∀ b ∈ M, isTokenByte b = true)
    (hP : P.isEmpty = false) (hPt : ∀ b ∈ P, isTokenByte b = true) :
    parseRequestLine (requestLineBytes M P) = some (M, P) := by
  unfold parseRequestLine requestLineBytes
  rw [takeWhile_append_cons isTokenByte M hMt 32 (by decide) _,
    dropWhile_append_cons isTokenByte M hMt 32 (by decide) _]
  simp only [hM, Bool.false_eq_true, if_false]
  rw [takeWhile_append_cons isTokenByte P hPt 32 (by decide) _,
    dropWhile_append_cons isTokenByte P hPt 32 (by decide) _]
  simp [hP]

theorem parseHeaderLine_encode (h : List Nat × List Nat)
    (hwf : isHeaderWF h = true) :
    parseHeaderLine (headerLineBytes h) = some h := by
  unfold isHeaderWF at hwf
  simp only [Bool.and_eq_true, Bool.not_eq_true', List.all_eq_true, beq_iff_eq] at hwf
  obtain ⟨⟨⟨⟨hne, hnb⟩, hvb⟩, hdw⟩, hval⟩ := hwf
  unfold parseHeaderLine headerLineBytes
  rw [takeWhile_append_cons isNameByte h.1 hnb 58 (by decide) _,
    dropWhile_append_cons isNameByte h.1 hnb 58 (by decide) _]
  simp only [hne, Bool.false_eq_true, if_false]
  rw [List.dropWhile_cons]
  simp only [show isOWS 32 = true by decide, if_pos, hdw]
  have : h.2.all isValueByte = true := List.all_eq_true.mpr hvb
  simp [this]

theorem mapM_parseHeaderLine_encode :
    ∀ H : List (List Nat × List Nat), (∀ h ∈ H, isHeaderWF h = true) →
      (H.map headerLineBytes).mapM parseHeaderLine = some H := by
  intro H
  induction H with
  | nil => intro _; rfl
  | cons h H' ih =>
    intro hwf
    rw [List.map_cons, List.mapM_cons,
      parseHeaderLine_encode h (hwf h (List.mem_cons_self h H')),
      ih (fun x hx => hwf x (List.mem_cons_of_mem h hx))]
    rfl

theorem mapM_parseHeaderLine_none :
    ∀ (xs : List (List Nat)) (x : List Nat), x ∈ xs → parseHeaderLine x = none →
      xs.mapM parseHeaderLine = none := by
  intro xs
  induction xs with
  | nil => intro x hx; exact absurd hx (List.not_mem_nil x)
  | cons a xs' ih =>
    intro x hx hnone
    rw [List.mapM_cons]
    rcases List.mem_cons.mp hx with heq | hmem
    · rw [← heq, hnone]; rfl
    · cases ha : parseHeaderLine a with
      | none => rfl
      | some v => rw [ih x hmem hnone]; rfl

/-! ## Parsing the canonical encoding -/

theorem headerLineBytes_no13 (h : List Nat × List Nat) (hwf : isHeaderWF h = true) :
    ∀ b ∈ headerLineBytes h, b ≠ 13 := by
  unfold isHeaderWF at hwf
  simp only [Bool.and_eq_true, List.all_eq_true] at hwf
  intro b hb
  unfold headerLineBytes at hb
  rcases List.mem_append.mp hb with hb1 | hb2
  · have := hwf.1.1.1.2 b hb1
    unfold isNameByte isTokenByte at this
    simp at this
    omega
  · rcases List.mem_cons.mp hb2 with rfl | hb3
    · omega
    rcases List.mem_cons.mp hb3 with rfl | hb4
    · omega
    have := hwf.1.1.2 b hb4
    unfold isValueByte at this
    simp at this
    omega

theorem requestLineBytes_no13 (M P : List Nat)
    (hMt : ∀ b ∈ M, isTokenByte b = true) (hPt : ∀ b ∈ P, isTokenByte b = true) :
    ∀ b ∈ requestLineBytes M P, b ≠ 13 := by
  intro b hb
  unfold requestLineBytes at hb
  have tok13 : ∀ c, isTokenByte c = true → c ≠ 13 := by
    intro c hc
    unfold isTokenByte at hc
    simp at hc
    omega
  rcases List.mem_append.mp hb with hb1 | hb2
  · exact tok13 b (hMt b hb1)
  rcases List.mem_cons.mp hb2 with rfl | hb3
  · omega
  rcases List.mem_append.mp hb3 with hb4 | hb5
  · exact tok13 b (hPt b hb4)
  rcases List.mem_cons.mp hb5 with rfl | hb6
  · omega
  · simp [httpVersion] at hb6
    rcases hb6 with rfl | rfl | rfl | rfl | rfl | rfl | rfl | rfl <;> decide

theorem headerLineBytes_ne_nil (h : List Nat × List Nat) :
    headerLineBytes h ≠ [] := by
  unfold headerLineBytes
  intro he
  exact absurd (List.append_eq_nil.mp he).2 (by simp)

theorem takeLinesAux_headers :
    ∀ (H : List (List Nat × List Nat)), (∀ h ∈ H, isHeaderWF h = true) → ∀ B : List Nat,
      takeLinesAux ((H.flatMap fun h => headerLineBytes h ++ CRLF) ++ CRLF ++ B) [] =
        some (H.map headerLineBytes,
          (H.flatMap fun h => headerLineBytes h ++ CRLF).length + 2) := by
  intro H
  induction H with
  | nil =>
    intro _ B
    show takeLinesAux (13 :: 10 :: B) [] = _
    rw [takeLinesAux.eq_2, if_pos rfl]
    simp
  | cons h H' ih =>
    intro hwf B
    have hx : (H'.flatMap fun x => headerLineBytes x ++ CRLF) ++ CRLF ++ B =
        (H'.flatMap fun x => headerLineBytes x ++ CRLF) ++ (13 :: 10 :: B) := by
      simp [CRLF]
    have harr : ((h :: H').flatMap fun x => headerLineBytes x ++ CRLF) ++ CRLF ++ B =
        headerLineBytes h ++ 13 :: 10 ::
          ((H'.flatMap fun x => headerLineBytes x ++ CRLF) ++ CRLF ++ B) := by
      rw [List.flatMap_cons]
      simp [CRLF]
    rw [harr,
      takeLinesAux_append (headerLineBytes h)
        (headerLineBytes_no13 h (hwf h (List.mem_cons_self h H'))) [] _,
      if_neg (by simp [headerLineBytes_ne_nil h]),
      ih (fun x hx => hwf x (List.mem_cons_of_mem h hx)) B]
    simp [CRLF]
    omega



theorem wellFormedRequest_parts (M P : List Nat) (H : List (List Nat × List Nat)) (B : List Nat)
    (h : wellFormedRequest M P H B = true) :
    M.isEmpty = false ∧ (∀ b ∈ M, isTokenByte b = true) ∧
    P.isEmpty = false ∧ (∀ b ∈ P, isTokenByte b = true) ∧
    (∀ x ∈ H, isHeaderWF x = true) ∧ utf8Valid B = true := by
  unfold wellFormedRequest at h
  simp only [Bool.and_eq_true, Bool.not_eq_true', List.all_eq_true] at h
  exact ⟨h.1.1.1.1.1, h.1.1.1.1.2, h.1.1.1.2, h.1.1.2, h.1.2, h.2⟩

theorem takeHeaderLines_encode (M P : List Nat) (H : List (List Nat × List Nat)) (B : List Nat)
    (h : wellFormedRequest M P H B = true) :
    takeHeaderLines (encodeRequest M P H B) =
      some (requestLineBytes M P :: H.map headerLineBytes, (headerBlockBytes M P H).length) := by
  obtain ⟨hM, hMt, hP, hPt, hH, hB⟩ := wellFormedRequest_parts M P H B h
  have harr : encodeRequest M P H B =
      requestLineBytes M P ++ 13 :: 10 ::
        ((H.flatMap fun x => headerLineBytes x ++ CRLF) ++ CRLF ++ B) := by
    unfold encodeRequest headerBlockBytes
    simp [CRLF]
  unfold takeHeaderLines
  rw [harr, takeLinesAux_append (requestLineBytes M P) (requestLineBytes_no13 M P hMt hPt) [] _,
    if_neg (by
      intro hc
      rw [List.isEmpty_eq_false] at hM
      exact hM (List.append_eq_nil.mp hc.1).1),
    takeLinesAux_headers H hH B]
  unfold headerBlockBytes
  simp [CRLF]
  omega

theorem httparseParse_encode (M P : List Nat) (H : List (List Nat × List Nat)) (B : List Nat)
    (h : wellFormedRequest M P H B = true) (hlen : H.length ≤ 16) :
    httparseParse 16 (encodeRequest M P H B) =
      .complete (headerBlockBytes M P H).length (some M) (some P) H := by
  obtain ⟨hM, hMt, hP, hPt, hH, hB⟩ := wellFormedRequest_parts M P H B h
  unfold httparseParse
  rw [takeHeaderLines_encode M P H B h]
  simp only [List.length_map]
  rw [if_neg (by omega)]
  rw [parseRequestLine_encode M P hM hMt hP hPt, mapM_parseHeaderLine_encode H hH]



/-- C1, as amended: every well-formed byte sequence encoding a request
with method M, path P, an ordered header list H of at most 16 headers
(the capacity of the header buffer at `src/notify.rs` line 61) and body B
parses to exactly method M, path P, the header vector H in order and
count, and body B. With more than 16 headers parsing instead fails with
`ParseError` — see the counterexample to the unamended claim. -/
theorem claim_c1_parse_roundtrip (addr : SocketAddr) (M P : List Nat)
    (H : List (List Nat × List Nat)) (B : List Nat)
    (h : wellFormedRequest M P H B = true) (hlen : H.length ≤ 16) :
    NotifyRequest.parse addr (encodeRequest M P H B) =
      .ok { remote_addr := addr, method := M, path := P, headers := H, body := B } := by
  obtain ⟨hM, hMt, hP, hPt, hH, hB⟩ := wellFormedRequest_parts M P H B h
  unfold NotifyRequest.parse
  rw [httparseParse_encode M P H B h hlen]
  have hheaders : H.map (fun x => (x.1, utf8Lossy x.2)) = H := by
    rw [List.map_congr_left (g := id) (fun x hx => ?_), List.map_id]
    have hwfx := hH x hx
    unfold isHeaderWF at hwfx
    simp only [Bool.and_eq_true] at hwfx
    rw [utf8Lossy_of_valid x.2 hwfx.2]
    simp
  have hbody : (if (headerBlockBytes M P H).length < (encodeRequest M P H B).length
      then utf8Lossy ((encodeRequest M P H B).drop (headerBlockBytes M P H).length)
      else []) = B := by
    by_cases hBnil : B = []
    · subst hBnil
      rw [if_neg (by unfold encodeRequest; simp)]
    · rw [if_pos (by
        unfold encodeRequest
        simp only [List.length_append]
        have : 0 < B.length := List.length_pos.mpr hBnil
        omega)]
      unfold encodeRequest
      rw [List.drop_left, utf8Lossy_of_valid B hB]
  simp only [Option.getD_some, hheaders, hbody]



/-- Witness for C1: the specification's M-SEARCH scenario. -/
theorem claim_c1_witness :
    wellFormedRequest [77, 45, 83, 69, 65, 82, 67, 72] [42]
        [([72, 79, 83, 84], [50, 51, 57, 46, 50, 53, 53, 46, 50, 53, 53, 46, 50, 53, 48, 58, 49, 57, 48, 48]),
         ([77, 65, 78], [34, 115, 115, 100, 112, 58, 100, 105, 115, 99, 111, 118, 101, 114, 34]),
         ([83, 84], [115, 115, 100, 112, 58, 97, 108, 108])] [] = true ∧
    ([([72, 79, 83, 84], [50, 51, 57, 46, 50, 53, 53, 46, 50, 53, 53, 46, 50, 53, 48, 58, 49, 57, 48, 48]),
      ([77, 65, 78], [34, 115, 115, 100, 112, 58, 100, 105, 115, 99, 111, 118, 101, 114, 34]),
      ([83, 84], [115, 115, 100, 112, 58, 97, 108, 108])] :
        List (List Nat × List Nat)).length ≤ 16 ∧
    NotifyRequest.parse ⟨0, 0⟩ (encodeRequest [77, 45, 83, 69, 65, 82, 67, 72] [42]
        [([72, 79, 83, 84], [50, 51, 57, 46, 50, 53, 53, 46, 50, 53, 53, 46, 50, 53, 48, 58, 49, 57, 48, 48]),
         ([77, 65, 78], [34, 115, 115, 100, 112, 58, 100, 105, 115, 99, 111, 118, 101, 114, 34]),
         ([83, 84], [115, 115, 100, 112, 58, 97, 108, 108])] []) =
      .ok { remote_addr := ⟨0, 0⟩, method := [77, 45, 83, 69, 65, 82, 67, 72], path := [42],
            headers := [([72, 79, 83, 84], [50, 51, 57, 46, 50, 53, 53, 46, 50, 53, 53, 46, 50, 53, 48, 58, 49, 57, 48, 48]),
              ([77, 65, 78], [34, 115, 115, 100, 112, 58, 100, 105, 115, 99, 111, 118, 101, 114, 34]),
              ([83, 84], [115, 115, 100, 112, 58, 97, 108, 108])],
            body := [] } :=
  ⟨by decide, by decide, claim_c1_parse_roundtrip ⟨0, 0⟩ _ _ _ _ (by decide) (by decide)⟩

/-- Counterexample to C1 as stated: a well-formed request with 17 headers
overflows the 16-slot header buffer of `src/notify.rs` line 61 and parses
to `ParseError` instead of `Ok`. -/
theorem claim_c1_counterexample :
    wellFormedRequest [78] [42] (List.replicate 17 ([65], [49])) [] = true ∧
    NotifyRequest.parse ⟨0, 0⟩
        (encodeRequest [78] [42] (List.replicate 17 ([65], [49])) []) =
      .error .parseError :=
  ⟨by decide, by rfl⟩


/-! ## Truncated datagrams -/

theorem takeLinesAux_take_none :
    ∀ (lines : List (List Nat)), (∀ L ∈ lines, L ≠ [] ∧ ∀ b ∈ L, b ≠ 13) →
      ∀ k, k < ((lines.flatMap fun L => L ++ CRLF) ++ CRLF).length →
        takeLinesAux (((lines.flatMap fun L => L ++ CRLF) ++ CRLF).take k) [] = none := by
  intro lines
  induction lines with
  | nil =>
    intro _ k hk
    simp [CRLF] at hk
    match k, hk with
    | 0, _ => rw [List.take_zero, takeLinesAux.eq_1]
    | 1, _ =>
      show takeLinesAux ([13, 10].take 1) [] = none
      rw [show ([13, 10] : List Nat).take 1 = [13] from rfl]
      exact takeLinesAux_eq_none [13] (by decide) []
  | cons L ls ih =>
    intro h k hk
    have hL := h L (List.mem_cons_self L ls)
    have harr : ((L :: ls).flatMap fun x => x ++ CRLF) ++ CRLF =
        L ++ 13 :: 10 :: ((ls.flatMap fun x => x ++ CRLF) ++ CRLF) := by
      rw [List.flatMap_cons]
      simp [CRLF]
    rw [harr] at hk ⊢
    simp only [List.length_append, List.length_cons] at hk
    rcases Nat.lt_or_ge k (L.length + 1) with hk1 | hk1
    · rw [List.take_append_eq_append_take, show k - L.length = 0 from by omega,
        List.take_zero, List.append_nil]
      exact takeLinesAux_eq_none (L.take k)
        (hasCRLF_of_no13 (L.take k) fun b hb => hL.2 b (List.mem_of_mem_take hb)) []
    rcases Nat.lt_or_ge k (L.length + 2) with hk2 | hk2
    · rw [List.take_append_eq_append_take, List.take_of_length_le (by omega),
        show k - L.length = 1 from by omega,
        show (13 :: 10 :: ((ls.flatMap fun x => x ++ CRLF) ++ CRLF)).take 1 = [13] from rfl]
      exact takeLinesAux_eq_none (L ++ [13]) (hasCRLF_append13 L hL.2) []
    · rw [List.take_append_eq_append_take, List.take_of_length_le (by omega),
        show k - L.length = (k - L.length - 2) + 2 from by omega]
      rw [List.take_succ_cons, List.take_succ_cons]
      rw [takeLinesAux_append L hL.2 [] _,
        if_neg (by simp [hL.1]),
        ih (fun x hx => h x (List.mem_cons_of_mem L hx)) (k - L.length - 2)
          (by simp only [List.length_append]; omega)]



theorem headerBlockBytes_eq_lines (M P : List Nat) (H : List (List Nat × List Nat)) :
    headerBlockBytes M P H =
      ((requestLineBytes M P :: H.map headerLineBytes).flatMap fun L => L ++ CRLF) ++ CRLF := by
  unfold headerBlockBytes
  rw [List.flatMap_cons, List.flatMap_map]

theorem countCRLF_append_no13 :
    ∀ (x : List Nat), (∀ b ∈ x, b ≠ 13) → ∀ t, countCRLF (x ++ t) = countCRLF t := by
  intro x
  induction x with
  | nil => intro _ t; rw [List.nil_append]
  | cons b x' ih =>
    intro h t
    have hb : b ≠ 13 := h b (List.mem_cons_self b x')
    rw [List.cons_append, countCRLF.eq_2 b (x' ++ t) (fun tl h13 _ => hb h13)]
    exact ih (fun c hc => h c (List.mem_cons_of_mem b hc)) t

theorem countCRLF_take_le :
    ∀ (lines : List (List Nat)), (∀ L ∈ lines, ∀ b ∈ L, b ≠ 13) →
      ∀ k, k < ((lines.flatMap fun L => L ++ CRLF) ++ CRLF).length →
        countCRLF (((lines.flatMap fun L => L ++ CRLF) ++ CRLF).take k) ≤ lines.length := by
  intro lines
  induction lines with
  | nil =>
    intro _ k hk
    simp [CRLF] at hk
    match k, hk with
    | 0, _ => rw [List.take_zero]; decide
    | 1, _ =>
      show countCRLF ([13, 10].take 1) ≤ 0
      rw [show ([13, 10] : List Nat).take 1 = [13] from rfl]
      decide
  | cons L ls ih =>
    intro h k hk
    have hL13 := h L (List.mem_cons_self L ls)
    have harr : ((L :: ls).flatMap fun x => x ++ CRLF) ++ CRLF =
        L ++ 13 :: 10 :: ((ls.flatMap fun x => x ++ CRLF) ++ CRLF) := by
      rw [List.flatMap_cons]
      simp [CRLF]
    rw [harr] at hk ⊢
    simp only [List.length_append, List.length_cons] at hk
    rcases Nat.lt_or_ge k (L.length + 1) with hk1 | hk1
    · rw [List.take_append_eq_append_take, show k - L.length = 0 from by omega,
        List.take_zero, List.append_nil]
      have h0 : countCRLF (L.take k) = 0 := by
        have := countCRLF_append_no13 (L.take k)
          (fun b hb => hL13 b (List.mem_of_mem_take hb)) []
        simpa using this
      rw [h0]
      exact Nat.zero_le _
    rcases Nat.lt_or_ge k (L.length + 2) with hk2 | hk2
    · rw [List.take_append_eq_append_take, List.take_of_length_le (by omega),
        show k - L.length = 1 from by omega,
        show (13 :: 10 :: ((ls.flatMap fun x => x ++ CRLF) ++ CRLF)).take 1 = [13] from rfl,
        countCRLF_append_no13 L hL13 [13],
        show countCRLF [13] = 0 from rfl]
      exact Nat.zero_le _
    · rw [List.take_append_eq_append_take, List.take_of_length_le (by omega),
        show k - L.length = (k - L.length - 2) + 2 from by omega,
        List.take_succ_cons, List.take_succ_cons,
        countCRLF_append_no13 L hL13 _, countCRLF.eq_1]
      have hih := ih (fun x hx => h x (List.mem_cons_of_mem L hx)) (k - L.length - 2)
        (by simp only [List.length_append]; omega)
      simp only [List.length_cons]
      omega

/-- C2, as amended: every truncation, cut before the end of the
header-terminating blank line, of a well-formed request with at most 16
headers parses to the `Incomplete` error, never a `ParseError` and never
a success. A truncation carrying more than 16 complete header lines
instead overflows the header buffer of `src/notify.rs` line 61 and fails
with `ParseError` — see the counterexample to the unamended claim. -/
theorem claim_c2_truncation_incomplete (addr : SocketAddr) (M P : List Nat)
    (H : List (List Nat × List Nat)) (B : List Nat) (k : Nat)
    (h : wellFormedRequest M P H B = true) (hlen : H.length ≤ 16)
    (hk : k < (headerBlockBytes M P H).length) :
    NotifyRequest.parse addr ((encodeRequest M P H B).take k) = .error .incomplete := by
  obtain ⟨hM, hMt, hP, hPt, hH, hB⟩ := wellFormedRequest_parts M P H B h
  have htake : (encodeRequest M P H B).take k = (headerBlockBytes M P H).take k := by
    unfold encodeRequest
    rw [List.take_append_eq_append_take, show k - (headerBlockBytes M P H).length = 0 from by
      omega, List.take_zero, List.append_nil]
  have hlines : ∀ L ∈ requestLineBytes M P :: H.map headerLineBytes,
      L ≠ [] ∧ ∀ b ∈ L, b ≠ 13 := by
    intro L hLmem
    rcases List.mem_cons.mp hLmem with rfl | hmap
    · refine ⟨?_, requestLineBytes_no13 M P hMt hPt⟩
      unfold requestLineBytes
      intro hc
      rw [List.isEmpty_eq_false] at hM
      exact hM (List.append_eq_nil.mp hc).1
    · obtain ⟨x, hxH, rfl⟩ := List.mem_map.mp hmap
      exact ⟨headerLineBytes_ne_nil x, headerLineBytes_no13 x (hH x hxH)⟩
  have hnone : takeHeaderLines ((headerBlockBytes M P H).take k) = none := by
    unfold takeHeaderLines
    rw [headerBlockBytes_eq_lines]
    exact takeLinesAux_take_none (requestLineBytes M P :: H.map headerLineBytes) hlines k
      (by rw [← headerBlockBytes_eq_lines]; exact hk)
  have hcount : ¬(16 + 1 < countCRLF ((headerBlockBytes M P H).take k)) := by
    have hb := countCRLF_take_le (requestLineBytes M P :: H.map headerLineBytes)
      (fun L hL => (hlines L hL).2) k
      (by rw [← headerBlockBytes_eq_lines]; exact hk)
    rw [← headerBlockBytes_eq_lines] at hb
    simp only [List.length_cons, List.length_map] at hb
    omega
  unfold NotifyRequest.parse httparseParse
  rw [htake]
  simp only [hnone, if_neg hcount]

/-! ## Substring search characterization -/

theorem startsWith_iff (n h : List Nat) : startsWith n h = true ↔ ∃ t, n ++ t = h := by
  induction n generalizing h with
  | nil => simp [startsWith]
  | cons a as ih =>
    cases h with
    | nil => simp [startsWith]
    | cons b bs =>
      simp only [startsWith, Bool.and_eq_true, beq_iff_eq, ih, List.cons_append,
        List.cons.injEq]
      constructor
      · rintro ⟨rfl, t, rfl⟩
        exact ⟨t, rfl, rfl⟩
      · rintro ⟨t, rfl, rfl⟩
        exact ⟨rfl, t, rfl⟩

theorem listContains_iff (h n : List Nat) :
    listContains h n = true ↔ ∃ s t, s ++ n ++ t = h := by
  induction h with
  | nil =>
    simp [listContains, List.isEmpty_iff, List.append_eq_nil]
  | cons b bs ih =>
    simp only [listContains, Bool.or_eq_true, startsWith_iff, ih]
    constructor
    · rintro (⟨t, ht⟩ | ⟨s, t, ht⟩)
      · exact ⟨[], t, by simpa using ht⟩
      · exact ⟨b :: s, t, by simp [ht]⟩
    · rintro ⟨s, t, ht⟩
      cases s with
      | nil => exact Or.inl ⟨t, by simpa using ht⟩
      | cons c s' =>
        simp only [List.cons_append, List.cons.injEq] at ht
        exact Or.inr ⟨s', t, ht.2⟩

theorem listContains_nil (h : List Nat) : listContains h [] = true := by
  cases h with
  | nil => simp [listContains, List.isEmpty]
  | cons b bs => simp [listContains, startsWith]

/-! ## Header predicate characterizations -/

theorem eqIgnoreAsciiCase_iff (a b : List Nat) :
    eqIgnoreAsciiCase a b = true ↔ a.map toAsciiLower = b.map toAsciiLower := by
  simp [eqIgnoreAsciiCase]

theorem header_contains_iff (r : NotifyRequest) (name value : List Nat) :
    r.header_contains name value = true ↔
      ∃ p ∈ r.headers, p.1.map toAsciiLower = name.map toAsciiLower ∧
        ∃ s t, s ++ value ++ t = p.2 := by
  simp [NotifyRequest.header_contains, List.any_eq_true, eqIgnoreAsciiCase_iff,
    listContains_iff]

theorem header_match_iff (r : NotifyRequest) (name value : List Nat) :
    r.header_match name value = true ↔
      ∃ p ∈ r.headers, p.1.map toAsciiLower = name.map toAsciiLower ∧
        p.2.map toAsciiLower = value.map toAsciiLower := by
  simp [NotifyRequest.header_match, List.any_eq_true, eqIgnoreAsciiCase_iff]

/-- C3: for every parsed request and all strings name and substr,
`header_contains name substr` returns true if and only if some header
whose name equals `name` ASCII-case-insensitively has a value containing
`substr` as a literal, case-sensitive substring. -/
theorem claim_c3_header_contains (r : NotifyRequest) (name substr : List Nat) :
    r.header_contains name substr = true ↔
      ∃ p ∈ r.headers, p.1.map toAsciiLower = name.map toAsciiLower ∧
        ∃ s t, s ++ substr ++ t = p.2 :=
  header_contains_iff r name substr

/-- C4: for every parsed request and all strings name and value,
`header_match name value` returns true if and only if some header whose
name equals `name` ASCII-case-insensitively has a value equal to `value`
up to ASCII case. -/
theorem claim_c4_header_match (r : NotifyRequest) (name value : List Nat) :
    r.header_match name value = true ↔
      ∃ p ∈ r.headers, p.1.map toAsciiLower = name.map toAsciiLower ∧
        p.2.map toAsciiLower = value.map toAsciiLower :=
  header_match_iff r name value

/-- C7: when no header of the request has the given name under
ASCII-case-insensitive comparison, `header_contains` and `header_match`
both return false for every value. -/
theorem claim_c7_no_matching_name (r : NotifyRequest) (name : List Nat)
    (h : ∀ p ∈ r.headers, p.1.map toAsciiLower ≠ name.map toAsciiLower) :
    ∀ value : List Nat,
      r.header_contains name value = false ∧ r.header_match name value = false := by
  intro value
  constructor
  · rw [← Bool.not_eq_true, header_contains_iff]
    rintro ⟨p, hp, hname, -⟩
    exact h p hp hname
  · rw [← Bool.not_eq_true, header_match_iff]
    rintro ⟨p, hp, hname, -⟩
    exact h p hp hname

/-- Witness for C7 at a concrete request: one header named HOST, queried
with name NT. -/
theorem claim_c7_witness :
    (∀ p ∈ (NotifyRequest.mk ⟨0, 0⟩ [78] [42] [([72, 79, 83, 84], [49, 50, 51])] []).headers,
      p.1.map toAsciiLower ≠ ([78, 84] : List Nat).map toAsciiLower) ∧
    ((NotifyRequest.mk ⟨0, 0⟩ [78] [42] [([72, 79, 83, 84], [49, 50, 51])] []).header_contains
        [78, 84] [49] = false ∧
      (NotifyRequest.mk ⟨0, 0⟩ [78] [42] [([72, 79, 83, 84], [49, 50, 51])] []).header_match
        [78, 84] [49] = false) :=
  ⟨by decide, claim_c7_no_matching_name _ _ (by decide) [49]⟩

/-- C10: `header_contains name []` with the empty substring returns true
if and only if the request has at least one header whose name equals
`name` ASCII-case-insensitively, regardless of that header's value. -/
theorem claim_c10_empty_substring (r : NotifyRequest) (name : List Nat) :
    r.header_contains name [] = true ↔
      ∃ p ∈ r.headers, p.1.map toAsciiLower = name.map toAsciiLower := by
  rw [header_contains_iff]
  constructor
  · rintro ⟨p, hp, hname, -⟩
    exact ⟨p, hp, hname⟩
  · rintro ⟨p, hp, hname⟩
    exact ⟨p, hp, hname, [], p.2, by simp⟩

/-- C8: `NotifyMessage::parse` returns exactly the result of
`NotifyRequest::parse` on the message's remote address and data. -/
theorem claim_c8_message_parse (m : NotifyMessage) :
    m.parse = NotifyRequest.parse m.remote_addr m.data := rfl

theorem httparseParse_complete_inv (maxHeaders : Nat) (data : List Nat) (n : Nat)
    (mo po : Option (List Nat)) (hs : List (List Nat × List Nat))
    (h : httparseParse maxHeaders data = .complete n mo po hs) :
    ∃ lines, takeHeaderLines data = some (lines, n) := by
  unfold httparseParse at h
  split at h
  · split at h <;> exact absurd h (by simp)
  · rename_i lines m htl
    split at h
    · exact absurd h (by simp)
    · rename_i rl hls
      split at h
      · exact absurd h (by simp)
      · split at h
        · rename_i m2 p2 hs2 heq
          simp only [HttparseResult.complete.injEq] at h
          exact ⟨rl :: hls, by rw [htl, h.1]⟩
        · exact absurd h (by simp)

/-- C5: for every successfully parsed input the returned body is the
lossy text decoding of every byte past the parsed header-block offset,
that offset is in bounds, and when no bytes follow the header block the
body is the empty string; parsing the body never fails. -/
theorem claim_c5_body_lossy (addr : SocketAddr) (data : List Nat) (r : NotifyRequest)
    (h : NotifyRequest.parse addr data = .ok r) :
    ∃ n mo po hs, httparseParse 16 data = .complete n mo po hs ∧ n ≤ data.length ∧
      r.body = utf8Lossy (data.drop n) ∧ (data.drop n = [] → r.body = []) := by
  unfold NotifyRequest.parse at h
  cases hp : httparseParse 16 data with
  | truncated => rw [hp] at h; exact absurd h (by simp)
  | badRequest => rw [hp] at h; exact absurd h (by simp)
  | complete n mo po hs =>
    rw [hp] at h
    simp only [Except.ok.injEq] at h
    obtain ⟨lines, hlines⟩ := httparseParse_complete_inv 16 data n mo po hs hp
    have hle : n ≤ data.length := by
      have := takeLinesAux_le data [] lines n hlines
      simpa using this
    refine ⟨n, mo, po, hs, rfl, hle, ?_, ?_⟩
    · rw [← h]
      by_cases hlt : n < data.length
      · rw [if_pos hlt]
      · rw [if_neg hlt]
        rw [List.drop_eq_nil_iff.mpr (by omega)]
        rfl
    · intro hdrop
      rw [← h, hdrop]
      by_cases hlt : n < data.length
      · rw [if_pos hlt]; rfl
      · rw [if_neg hlt]



/-- Witness for C5 at a concrete datagram with a two-byte body. -/
theorem claim_c5_witness :
    NotifyRequest.parse ⟨0, 0⟩ [78, 32, 42, 32, 72, 84, 84, 80, 47, 49, 46, 49, 13, 10, 13, 10, 111, 107] =
      .ok { remote_addr := ⟨0, 0⟩, method := [78], path := [42], headers := [], body := [111, 107] } ∧
    (∃ n mo po hs,
      httparseParse 16 [78, 32, 42, 32, 72, 84, 84, 80, 47, 49, 46, 49, 13, 10, 13, 10, 111, 107] =
        .complete n mo po hs ∧
      n ≤ ([78, 32, 42, 32, 72, 84, 84, 80, 47, 49, 46, 49, 13, 10, 13, 10, 111, 107] : List Nat).length ∧
      ({ remote_addr := ⟨0, 0⟩, method := [78], path := [42], headers := [],
          body := [111, 107] } : NotifyRequest).body =
        utf8Lossy (([78, 32, 42, 32, 72, 84, 84, 80, 47, 49, 46, 49, 13, 10, 13, 10, 111, 107] : List Nat).drop n) ∧
      (([78, 32, 42, 32, 72, 84, 84, 80, 47, 49, 46, 49, 13, 10, 13, 10, 111, 107] : List Nat).drop n = [] →
        ({ remote_addr := ⟨0, 0⟩, method := [78], path := [42], headers := [],
            body := [111, 107] } : NotifyRequest).body = [])) :=
  ⟨rfl, claim_c5_body_lossy ⟨0, 0⟩ _ _ rfl⟩

/-- C6: when the data has a complete header block and its request line or
one of its header lines violates the line grammar, parsing fails with
`ParseError`. -/
theorem claim_c6_grammar_violation (addr : SocketAddr) (data : List Nat)
    (lines : List (List Nat)) (n : Nat)
    (h1 : takeHeaderLines data = some (lines, n))
    (h2 : lines = [] ∨ ∃ rl hls, lines = rl :: hls ∧
      (parseRequestLine rl = none ∨ ∃ hl ∈ hls, parseHeaderLine hl = none)) :
    NotifyRequest.parse addr data = .error .parseError := by
  unfold NotifyRequest.parse httparseParse
  simp only [h1]
  rcases h2 with rfl | ⟨rl, hls, rfl, hbad⟩
  · rfl
  · by_cases hcap : 16 < hls.length
    · simp only [if_pos hcap]
    · rcases hbad with hrl | ⟨hl, hmem, hnone⟩
      · simp only [if_neg hcap, hrl]
      · simp only [if_neg hcap, mapM_parseHeaderLine_none hls hl hmem hnone]
        cases parseRequestLine rl with
        | none => rfl
        | some mp => obtain ⟨m1, p1⟩ := mp; rfl

/-- Witness for C6: a request line without an HTTP version. -/
theorem claim_c6_witness :
    takeHeaderLines [71, 69, 84, 32, 47, 13, 10, 13, 10] = some ([[71, 69, 84, 32, 47]], 9) ∧
    parseRequestLine [71, 69, 84, 32, 47] = none ∧
    NotifyRequest.parse ⟨0, 0⟩ [71, 69, 84, 32, 47, 13, 10, 13, 10] = .error .parseError :=
  ⟨by decide, by decide,
    claim_c6_grammar_violation ⟨0, 0⟩ _ [[71, 69, 84, 32, 47]] 9 (by decide)
      (Or.inr ⟨[71, 69, 84, 32, 47], [], rfl, Or.inl (by decide)⟩)⟩

/-- C9: parsing is total — every input yields `Incomplete`, `ParseError`
or a successfully parsed request (never the IO error and never a panic),
and the completion offset used to slice the body is always in bounds. -/
theorem claim_c9_parse_total (addr : SocketAddr) (data : List Nat) :
    (NotifyRequest.parse addr data = .error .incomplete ∨
     NotifyRequest.parse addr data = .error .parseError ∨
     ∃ r, NotifyRequest.parse addr data = .ok r) ∧
    ∀ n mo po hs, httparseParse 16 data = .complete n mo po hs → n ≤ data.length := by
  constructor
  · unfold NotifyRequest.parse
    cases hp : httparseParse 16 data with
    | truncated => left; rfl
    | badRequest => right; left; rfl
    | complete n mo po hs => right; right; exact ⟨_, rfl⟩
  · intro n mo po hs hp
    obtain ⟨lines, hlines⟩ := httparseParse_complete_inv 16 data n mo po hs hp
    simpa using takeLinesAux_le data [] lines n hlines

/-- Witness for C2: a five-byte truncation of a well-formed request. -/
theorem claim_c2_witness :
    wellFormedRequest [78] [42] [] [] = true ∧
    ([] : List (List Nat × List Nat)).length ≤ 16 ∧
    5 < (headerBlockBytes [78] [42] []).length ∧
    NotifyRequest.parse ⟨0, 0⟩ ((encodeRequest [78] [42] [] []).take 5) = .error .incomplete :=
  ⟨by decide, by decide, by decide,
    claim_c2_truncation_incomplete ⟨0, 0⟩ [78] [42] [] [] 5 (by decide) (by decide) (by decide)⟩

/-- Counterexample to C2 as stated: truncating a well-formed 17-header
request two bytes before the end of its 118-byte header block (so before
the terminating blank line, with all 17 header lines complete) yields
`ParseError` from the overflowing 16-slot header buffer, not
`Incomplete`. -/
theorem claim_c2_counterexample :
    wellFormedRequest [78] [42] (List.replicate 17 ([65], [49])) [] = true ∧
    116 < (headerBlockBytes [78] [42] (List.replicate 17 ([65], [49]))).length ∧
    NotifyRequest.parse ⟨0, 0⟩
        ((encodeRequest [78] [42] (List.replicate 17 ([65], [49])) []).take 116) =
      .error .parseError :=
  ⟨by decide, by decide, by rfl⟩


/-- Witness for C9 at a concrete address and the empty datagram. -/
theorem claim_c9_witness :
    (NotifyRequest.parse ⟨0, 0⟩ [] = .error .incomplete ∨
     NotifyRequest.parse ⟨0, 0⟩ [] = .error .parseError ∨
     ∃ r, NotifyRequest.parse ⟨0, 0⟩ [] = .ok r) ∧
    ∀ n mo po hs, httparseParse 16 [] = .complete n mo po hs → n ≤ ([] : List Nat).length :=
  claim_c9_parse_total ⟨0, 0⟩ []


end TokioSsdp
